import Mathlib

set_option maxHeartbeats 1000000
set_option maxRecDepth 4096

/-!
Verification of the Complaints tracker's two core algorithms against their
specification: the hash-chained audit log (`appendHistory`,
`verifyHistoryChain`, and the load-time backfill walk of `Data.init`) and
the redaction engine (`maskText`, `redactComplaintDeep`).

The JavaScript source is embedded shallowly: histories are lists of
`HistoryEntry`, the SHA-256 digest (computed by `crypto.subtle` at runtime)
is an abstract `digest : String → String` parameter, the hex rendering of
`sha256Hex` is embedded over an abstract byte-level hash, and the four
redaction regular expressions are embedded by a small backtracking matcher
(`Re.cands`) whose candidate order reproduces the JavaScript engine's
leftmost, greedy, backtracking semantics for the constructs these patterns
use (character classes, sequencing, alternation, greedy optional and
bounded/unbounded greedy repetition of a class, and the word-boundary
assertion).
-/

namespace Complaints

/-- One audit-trail line, as pushed by `appendHistory`:
`{ date, event, hash }`. -/
structure HistoryEntry where
  date : String
  event : String
  hash : String
deriving Repr, DecidableEq

/-- The `prevHash` computation of `appendHistory`:
`(complaint.history && complaint.history.length) ?
 (complaint.history[complaint.history.length - 1].hash || "") : ""`. -/
def prevHashOf (history : List HistoryEntry) : String :=
  match history.getLast? with
  | some h => if h.hash = "" then "" else h.hash
  | none => ""

/-- `appendHistory(complaint, eventText)` with the digest abstracted and the
current calendar date (`new Date().toISOString().slice(0, 10)`) passed as an
explicit `date` argument: pushes `{ date, event, hash }` where
`hash = digest(prevHash + "|" + date + "|" + eventText)`. -/
def appendHistory (digest : String → String) (history : List HistoryEntry)
    (date eventText : String) : List HistoryEntry :=
  let prevHash := prevHashOf history
  let hash := digest (prevHash ++ "|" ++ date ++ "|" ++ eventText)
  history ++ [{ date := date, event := eventText, hash := hash }]

/-- The verification walk of `verifyHistoryChain`: recompute each entry's
expected hash from the running `prev` accumulator and short-circuit to
`false` on the first mismatch; on a match, `prev` becomes the stored hash. -/
def verifyChainGo (digest : String → String) : String → List HistoryEntry → Bool
  | _, [] => true
  | prev, h :: rest =>
    let expected := digest (prev ++ "|" ++ h.date ++ "|" ++ h.event)
    if h.hash ≠ expected then false else verifyChainGo digest h.hash rest

/-- `verifyHistoryChain(complaint)`: walk the history with the accumulator
seeded from the empty string. -/
def verifyHistoryChain (digest : String → String) (history : List HistoryEntry) : Bool :=
  verifyChainGo digest "" history

/-- The backfill walk of `Data.init`: recompute each expected hash from the
running `prev` (seeded with `""`); overwrite the stored hash when it is
missing (empty) or differs (`!h.hash || h.hash !== expected`); `prev`
becomes the (possibly updated) stored hash. -/
def backfillUpd (digest : String → String) (prev : String) (h : HistoryEntry) : HistoryEntry :=
  let expected := digest (prev ++ "|" ++ h.date ++ "|" ++ h.event)
  if h.hash = "" ∨ h.hash ≠ expected then { h with hash := expected } else h

def backfillGo (digest : String → String) : String → List HistoryEntry → List HistoryEntry
  | _, [] => []
  | prev, h :: rest =>
    let h' := backfillUpd digest prev h
    h' :: backfillGo digest h'.hash rest

/-- The whole backfill pass over one complaint's history. -/
def backfillHistory (digest : String → String) (history : List HistoryEntry) :
    List HistoryEntry :=
  backfillGo digest "" history

/-- One byte rendered as in `b.toString(16).padStart(2, "0")`. -/
def byteToHex (b : Nat) : String :=
  let s := String.mk (Nat.toDigits 16 b)
  if s.length < 2 then String.mk (List.replicate (2 - s.length) '0') ++ s else s

/-- `sha256Hex` with the raw digest bytes (`crypto.subtle.digest`) abstracted:
`Array.from(new Uint8Array(buf)).map(b => b.toString(16).padStart(2, "0")).join("")`. -/
def sha256Hex (sha : String → List Nat) (input : String) : String :=
  String.join ((sha input).map byteToHex)

/-- A lowercase hexadecimal character. -/
def isLowerHexChar (c : Char) : Bool :=
  decide (('0' ≤ c ∧ c ≤ '9') ∨ ('a' ≤ c ∧ c ≤ 'f'))

/-- The hash that the verification walk expects for the entry after `l`,
given that the walk over `l` started with accumulator `p`. -/
def lastHashD (p : String) (l : List HistoryEntry) : String :=
  match l.getLast? with
  | some h => h.hash
  | none => p

theorem lastHashD_nil (p : String) : lastHashD p [] = p := rfl

theorem lastHashD_cons (p : String) (h : HistoryEntry) (t : List HistoryEntry) :
    lastHashD p (h :: t) = lastHashD h.hash t := by
  cases t with
  | nil => rfl
  | cons b t' =>
    simp only [lastHashD, List.getLast?_cons_cons]
    cases hg : (b :: t').getLast? with
    | none => simp at hg
    | some x => rfl

theorem prevHashOf_eq_lastHashD (l : List HistoryEntry) :
    prevHashOf l = lastHashD "" l := by
  unfold prevHashOf lastHashD
  cases hl : l.getLast? with
  | none => rfl
  | some h =>
    by_cases hh : h.hash = "" <;> simp [hh]

theorem verifyChainGo_append (digest : String → String) (xs ys : List HistoryEntry) :
    ∀ p, verifyChainGo digest p (xs ++ ys) =
      (verifyChainGo digest p xs && verifyChainGo digest (lastHashD p xs) ys) := by
  induction xs with
  | nil => intro p; simp [verifyChainGo, lastHashD]
  | cons h t ih =>
    intro p
    simp only [List.cons_append, verifyChainGo]
    by_cases hc : h.hash ≠ digest (p ++ "|" ++ h.date ++ "|" ++ h.event)
    · simp [hc]
    · simp only [hc, if_false, ite_false, lastHashD_cons]
      exact ih h.hash

theorem verify_appendHistory (digest : String → String) (history : List HistoryEntry)
    (date eventText : String)
    (hv : verifyHistoryChain digest history = true) :
    verifyHistoryChain digest (appendHistory digest history date eventText) = true := by
  unfold verifyHistoryChain appendHistory
  rw [verifyChainGo_append]
  unfold verifyHistoryChain at hv
  rw [hv]
  simp [verifyChainGo, prevHashOf_eq_lastHashD]

/-- Fold a list of (date, event) calls through `appendHistory`, starting from
a given history. -/
def appendAll (digest : String → String) (calls : List (String × String))
    (history : List HistoryEntry) : List HistoryEntry :=
  calls.foldl (fun h de => appendHistory digest h de.1 de.2) history

theorem appendAll_valid (digest : String → String) (calls : List (String × String)) :
    ∀ history, verifyHistoryChain digest history = true →
      verifyHistoryChain digest (appendAll digest calls history) = true := by
  induction calls with
  | nil => intro history hv; exact hv
  | cons c rest ih =>
    intro history hv
    exact ih _ (verify_appendHistory digest history c.1 c.2 hv)

/-- C1: Chain validity is an invariant of the append operation: for every
history built solely by `appendHistory` — starting from an empty history and
performing any finite sequence of append calls with arbitrary date and event
strings — `verifyHistoryChain` on the resulting history returns `true`. -/
theorem chain_validity_of_appends (digest : String → String)
    (calls : List (String × String)) :
    verifyHistoryChain digest (appendAll digest calls []) = true :=
  appendAll_valid digest calls [] rfl

theorem encode_inj_event (q d e e' : String)
    (h : q ++ "|" ++ d ++ "|" ++ e = q ++ "|" ++ d ++ "|" ++ e') : e = e' := by
  have hd := congrArg String.data h
  simp only [String.data_append, List.append_assoc] at hd
  have h1 := List.append_cancel_left hd
  have h2 := List.append_cancel_left (List.append_cancel_left h1)
  exact String.ext (List.append_cancel_left h2)

theorem encode_inj_date (q d d' e : String)
    (h : q ++ "|" ++ d ++ "|" ++ e = q ++ "|" ++ d' ++ "|" ++ e) : d = d' := by
  have hd := congrArg String.data h
  simp only [String.data_append, List.append_assoc] at hd
  have h1 := List.append_cancel_left hd
  have h2 := List.append_cancel_left h1
  rw [← List.append_assoc, ← List.append_assoc] at h2
  have h3 : d.data ++ ['|'] = d'.data ++ ['|'] := List.append_cancel_right h2
  exact String.ext (List.append_cancel_right h3)

/-- C2: Tamper detection: given a chain on which `verifyHistoryChain` returns
`true`, replacing one entry `e` by `e'` that keeps the stored hash and all
other entries but changes the `event` field (or the `date` field) to a
different value makes `verifyHistoryChain` return `false`, assuming the
digest is injective. -/
theorem tamper_detection (digest : String → String) (hinj : Function.Injective digest)
    (xs ys : List HistoryEntry) (e e' : HistoryEntry)
    (hhash : e'.hash = e.hash)
    (hdiff : (e'.date = e.date ∧ e'.event ≠ e.event) ∨
             (e'.event = e.event ∧ e'.date ≠ e.date))
    (hvalid : verifyHistoryChain digest (xs ++ e :: ys) = true) :
    verifyHistoryChain digest (xs ++ e' :: ys) = false := by
  unfold verifyHistoryChain at hvalid ⊢
  rw [verifyChainGo_append] at hvalid ⊢
  obtain ⟨h1, h2⟩ := (Bool.and_eq_true _ _).mp hvalid
  have hstep : e.hash = digest (lastHashD "" xs ++ "|" ++ e.date ++ "|" ++ e.event) := by
    by_contra hne
    simp [verifyChainGo, hne] at h2
  have hfail : e'.hash ≠ digest (lastHashD "" xs ++ "|" ++ e'.date ++ "|" ++ e'.event) := by
    intro heq
    rw [hhash, hstep] at heq
    have hstr := hinj heq
    rcases hdiff with ⟨hd, hev⟩ | ⟨hev, hd⟩
    · rw [hd] at hstr
      exact hev (encode_inj_event _ _ _ _ hstr).symm
    · rw [hev] at hstr
      exact hd (encode_inj_date _ _ _ _ hstr).symm
  simp [verifyChainGo, hfail]

/-- Witness for C2 at a concrete valid one-entry chain with the identity as
the (injective) digest, and the event changed from "a" to "b". -/
theorem tamper_detection_witness :
    verifyHistoryChain (fun s => s)
      ([] ++ ({ date := "2025-01-10", event := "b", hash := "|2025-01-10|a" } : HistoryEntry) :: []) = false :=
  tamper_detection (fun s => s) (fun _ _ h => h) [] []
    { date := "2025-01-10", event := "a", hash := "|2025-01-10|a" }
    { date := "2025-01-10", event := "b", hash := "|2025-01-10|a" }
    rfl (Or.inl ⟨rfl, by decide⟩) (by decide)

theorem byteToHex_lowerHex : ∀ b < 256, ∀ c ∈ (byteToHex b).data, isLowerHexChar c = true := by
  decide

theorem data_foldl_append (l : List String) :
    ∀ a : String, (l.foldl (· ++ ·) a).data = a.data ++ (l.map String.data).flatten := by
  induction l with
  | nil => intro a; simp
  | cons s t ih =>
    intro a
    simp only [List.foldl_cons, ih, String.data_append, List.map_cons, List.flatten_cons,
      List.append_assoc]

theorem data_join (l : List String) :
    (String.join l).data = (l.map String.data).flatten := by
  have h := data_foldl_append l ""
  simpa [String.join] using h

theorem sha256Hex_lowerHex (sha : String → List Nat) (input : String)
    (hb : ∀ x ∈ sha input, x < 256) :
    ∀ c ∈ (sha256Hex sha input).data, isLowerHexChar c = true := by
  intro c hc
  unfold sha256Hex at hc
  rw [data_join] at hc
  rw [List.mem_flatten] at hc
  obtain ⟨s, hs, hcs⟩ := hc
  rw [List.map_map, List.mem_map] at hs
  obtain ⟨b, hbmem, hbeq⟩ := hs
  have hseq : s = (byteToHex b).data := by simpa using hbeq.symm
  exact byteToHex_lowerHex b (hb b hbmem) c (hseq ▸ hcs)

/-- C3: `appendHistory` with event string `e` appends exactly one entry whose
hash is `sha256Hex` of `prevHash ++ "|" ++ date ++ "|" ++ e`, where
`prevHash` is the last entry's hash (the empty string on an empty history);
the rendered digest consists only of lowercase hexadecimal characters when
the underlying digest yields bytes. -/
theorem appendHistory_hash_formula (sha : String → List Nat)
    (history : List HistoryEntry) (date eventText : String)
    (hb : ∀ x ∈ sha (prevHashOf history ++ "|" ++ date ++ "|" ++ eventText), x < 256) :
    (appendHistory (sha256Hex sha) history date eventText).dropLast = history ∧
    (appendHistory (sha256Hex sha) history date eventText).getLast? =
      some { date := date, event := eventText,
             hash := sha256Hex sha (prevHashOf history ++ "|" ++ date ++ "|" ++ eventText) } ∧
    (history = [] → prevHashOf history = "") ∧
    (∀ last : HistoryEntry, history.getLast? = some last → prevHashOf history = last.hash) ∧
    (∀ c ∈ (sha256Hex sha (prevHashOf history ++ "|" ++ date ++ "|" ++ eventText)).data,
      isLowerHexChar c = true) := by
  refine ⟨?_, ?_, ?_, ?_, sha256Hex_lowerHex sha _ hb⟩
  · simp [appendHistory]
  · simp [appendHistory]
  · intro h; subst h; rfl
  · intro last hlast
    unfold prevHashOf
    rw [hlast]
    by_cases hh : last.hash = "" <;> simp [hh]

/-- Witness for C3: the first entry appended to an empty history, with a
concrete byte-level digest stub. -/
theorem appendHistory_hash_formula_witness :
    (appendHistory (sha256Hex (fun _ => [0, 171, 255])) [] "2025-01-10" "Complaint created").getLast? =
      some { date := "2025-01-10", event := "Complaint created",
             hash := sha256Hex (fun _ => [0, 171, 255])
               (prevHashOf [] ++ "|" ++ "2025-01-10" ++ "|" ++ "Complaint created") } :=
  (appendHistory_hash_formula (fun _ => [0, 171, 255]) [] "2025-01-10" "Complaint created"
    (by decide)).2.1

theorem verifyChainGo_cons (digest : String → String) (prev : String)
    (h : HistoryEntry) (rest : List HistoryEntry) :
    verifyChainGo digest prev (h :: rest) =
      if h.hash ≠ digest (prev ++ "|" ++ h.date ++ "|" ++ h.event) then false
      else verifyChainGo digest h.hash rest := rfl

theorem backfillUpd_date (digest : String → String) (prev : String) (h : HistoryEntry) :
    (backfillUpd digest prev h).date = h.date := by
  simp only [backfillUpd]
  split <;> rfl

theorem backfillUpd_event (digest : String → String) (prev : String) (h : HistoryEntry) :
    (backfillUpd digest prev h).event = h.event := by
  simp only [backfillUpd]
  split <;> rfl

theorem backfillUpd_hash (digest : String → String) (prev : String) (h : HistoryEntry) :
    (backfillUpd digest prev h).hash = digest (prev ++ "|" ++ h.date ++ "|" ++ h.event) := by
  simp only [backfillUpd]
  split
  · rfl
  · next hcond =>
    push_neg at hcond
    exact hcond.2

theorem backfillGo_spec (digest : String → String) :
    ∀ (history : List HistoryEntry) (p : String),
      (backfillGo digest p history).map (fun h => (h.date, h.event)) =
        history.map (fun h => (h.date, h.event)) ∧
      verifyChainGo digest p (backfillGo digest p history) = true := by
  intro history
  induction history with
  | nil => intro p; exact ⟨rfl, rfl⟩
  | cons h t ih =>
    intro p
    have hbf : backfillGo digest p (h :: t) =
        backfillUpd digest p h :: backfillGo digest (backfillUpd digest p h).hash t := rfl
    rw [hbf]
    constructor
    · simp only [List.map_cons, backfillUpd_date, backfillUpd_event, (ih _).1]
    · rw [verifyChainGo_cons]
      have hcond : ¬((backfillUpd digest p h).hash ≠
          digest (p ++ "|" ++ (backfillUpd digest p h).date ++ "|" ++ (backfillUpd digest p h).event)) := by
        rw [backfillUpd_date, backfillUpd_event, backfillUpd_hash]
        exact not_ne_iff.mpr rfl
      rw [if_neg hcond]
      exact (ih _).2

/-- C4: the load-time backfill pass walks the history with a running
predecessor accumulator seeded from the empty string, leaves every entry's
date and event unchanged, and produces a history on which
`verifyHistoryChain` returns `true`, regardless of the hash values the
entries held before. -/
theorem backfill_heals (digest : String → String) (history : List HistoryEntry) :
    (backfillHistory digest history).map (fun h => (h.date, h.event)) =
      history.map (fun h => (h.date, h.event)) ∧
    verifyHistoryChain digest (backfillHistory digest history) = true :=
  backfillGo_spec digest history ""

/-! ### Redaction engine: embedding of the four `maskText` patterns -/

/-- JavaScript word character (the class underlying `\b`). -/
def isWordChar (c : Char) : Bool :=
  decide (('a' ≤ c ∧ c ≤ 'z') ∨ ('A' ≤ c ∧ c ≤ 'Z') ∨ ('0' ≤ c ∧ c ≤ '9') ∨ c = '_')

/-- JavaScript `\d`. -/
def jsDigit (c : Char) : Bool := decide ('0' ≤ c ∧ c ≤ '9')

/-- JavaScript `\s`. -/
def jsSpace (c : Char) : Bool :=
  decide (c = ' ' ∨ c = '\t' ∨ c = '\n' ∨ c = '\x0b' ∨ c = '\x0c' ∨ c = '\r' ∨
    c = ' ' ∨ c = ' ' ∨ (' ' ≤ c ∧ c ≤ ' ') ∨ c = ' ' ∨
    c = ' ' ∨ c = ' ' ∨ c = ' ' ∨ c = '　' ∨ c = '﻿')

/-- The regex fragment language needed by `maskText`'s four patterns:
character classes, sequencing, alternation, greedy option and greedy
(bounded or unbounded) repetition of a character class, and the
word-boundary assertion. -/
inductive Re where
  | cls (p : Char → Bool)
  | seq (a b : Re)
  | alt (a b : Re)
  | opt (p : Char → Bool)
  | rep (p : Char → Bool) (lo : Nat) (hi : Option Nat)
  | wb

def optWord : Option Char → Bool
  | some c => isWordChar c
  | none => false

/-- The `\b` test between the previous character and the next one. -/
def boundary (prev next : Option Char) : Bool :=
  optWord prev != optWord next

/-- Length of the maximal run of class characters at the front. -/
def munch (p : Char → Bool) : List Char → Nat
  | [] => 0
  | c :: r => if p c then munch p r + 1 else 0

/-- `[j, j-1, ..., lo]` — the greedy preference order of repetition counts. -/
def descList (j lo : Nat) : List Nat :=
  (List.range (j + 1 - lo)).map (fun i => j - i)

/-- The character preceding the position reached after consuming `k`
characters of `l` (used by later `\b` tests). -/
def prevAfter (prev : Option Char) (l : List Char) (k : Nat) : Option Char :=
  match (l.take k).getLast? with
  | some c => some c
  | none => prev

/-- All ways a fragment can match a prefix of `l` (given the preceding
character `prev`), as `(new preceding character, remaining suffix)` pairs,
listed in the JavaScript engine's backtracking preference order. -/
def Re.cands : Re → Option Char → List Char → List (Option Char × List Char)
  | .cls _, _, [] => []
  | .cls p, _, c :: r => if p c then [(some c, r)] else []
  | .seq a b, prev, l => (a.cands prev l).flatMap (fun pr => b.cands pr.1 pr.2)
  | .alt a b, prev, l => a.cands prev l ++ b.cands prev l
  | .opt _, prev, [] => [(prev, [])]
  | .opt p, prev, c :: r => if p c then [(some c, r), (prev, c :: r)] else [(prev, c :: r)]
  | .rep p lo hi, prev, l =>
    let m := munch p l
    let j := match hi with | some h => min m h | none => m
    (descList j lo).map (fun k => (prevAfter prev l k, l.drop k))
  | .wb, prev, l => if boundary prev l.head? then [(prev, l)] else []

/-- The suffix remaining after the preferred (leftmost-greedy) match at the
current position, if any. -/
def matchAt (re : Re) (prev : Option Char) (l : List Char) : Option (List Char) :=
  (re.cands prev l).head?.map (fun pr => pr.2)

/-- The scan of `String.prototype.replace` with a global regex: try each
position left to right; on a match, emit the replacement and resume after
the matched text (whose last character feeds later `\b` tests); otherwise
emit the character and move on. -/
def scanReplace (re : Re) (repl : List Char) : Nat → Option Char → List Char → List Char
  | 0, _, l => l
  | _ + 1, _, [] => []
  | fuel + 1, prev, c :: rest =>
    match matchAt re prev (c :: rest) with
    | some r =>
      if r.length < (c :: rest).length then
        repl ++ scanReplace re repl fuel (prevAfter prev (c :: rest) ((c :: rest).length - r.length)) r
      else
        c :: scanReplace re repl fuel (some c) rest
    | none => c :: scanReplace re repl fuel (some c) rest

/-- `text.replace(re, repl)` for a global regex. The fuel starts at the
string length; every step consumes at least one character, so it never runs
out. -/
def replAll (re : Re) (repl : String) (s : String) : String :=
  String.mk (scanReplace re repl.data s.data.length none s.data)

/-- `[A-Z0-9._%+-]` under the `i` flag. -/
def emailLocalChar (c : Char) : Bool :=
  decide (('A' ≤ c ∧ c ≤ 'Z') ∨ ('a' ≤ c ∧ c ≤ 'z') ∨ ('0' ≤ c ∧ c ≤ '9') ∨
    c = '.' ∨ c = '_' ∨ c = '%' ∨ c = '+' ∨ c = '-')

/-- `[A-Z0-9.-]` under the `i` flag. -/
def emailDomainChar (c : Char) : Bool :=
  decide (('A' ≤ c ∧ c ≤ 'Z') ∨ ('a' ≤ c ∧ c ≤ 'z') ∨ ('0' ≤ c ∧ c ≤ '9') ∨
    c = '.' ∨ c = '-')

/-- `[A-Z]` under the `i` flag. -/
def asciiAlpha (c : Char) : Bool := decide (('A' ≤ c ∧ c ≤ 'Z') ∨ ('a' ≤ c ∧ c ≤ 'z'))

/-- `/[A-Z0-9._%+-]+@[A-Z0-9.-]+\.[A-Z]{2,}/ig` -/
def emailRe : Re :=
  .seq (.rep emailLocalChar 1 none)
    (.seq (.cls (fun c => c == '@'))
      (.seq (.rep emailDomainChar 1 none)
        (.seq (.cls (fun c => c == '.')) (.rep asciiAlpha 2 none))))

/-- `[\d\s\-()]` -/
def phoneMid (c : Char) : Bool :=
  jsDigit c || jsSpace c || c == '-' || c == '(' || c == ')'

/-- `/\b(?:\+?\d[\d\s\-()]{7,}\d)\b/g` -/
def phoneRe : Re :=
  .seq .wb
    (.seq (.opt (fun c => c == '+'))
      (.seq (.cls jsDigit)
        (.seq (.rep phoneMid 7 none)
          (.seq (.cls jsDigit) .wb))))

/-- One case-insensitive literal letter. -/
def ciChar (lower upper : Char) : Re := .cls (fun c => c == lower || c == upper)

def badgeWord : Re :=
  .seq (ciChar 'b' 'B') (.seq (ciChar 'a' 'A') (.seq (ciChar 'd' 'D')
    (.seq (ciChar 'g' 'G') (ciChar 'e' 'E'))))

def warrantWord : Re :=
  .seq (ciChar 'w' 'W') (.seq (ciChar 'a' 'A') (.seq (ciChar 'r' 'R')
    (.seq (ciChar 'r' 'R') (.seq (ciChar 'a' 'A') (.seq (ciChar 'n' 'N')
      (ciChar 't' 'T'))))))

def employeeWord : Re :=
  .seq (ciChar 'e' 'E') (.seq (ciChar 'm' 'M') (.seq (ciChar 'p' 'P')
    (.seq (ciChar 'l' 'L') (.seq (ciChar 'o' 'O') (.seq (ciChar 'y' 'Y')
      (.seq (ciChar 'e' 'E') (ciChar 'e' 'E')))))))

def staffWord : Re :=
  .seq (ciChar 's' 'S') (.seq (ciChar 't' 'T') (.seq (ciChar 'a' 'A')
    (.seq (ciChar 'f' 'F') (ciChar 'f' 'F'))))

/-- `/\b(?:badge|warrant|employee|staff)\s*#?\s*\d{3,}\b/ig` -/
def badgeRe : Re :=
  .seq .wb
    (.seq (.alt badgeWord (.alt warrantWord (.alt employeeWord staffWord)))
      (.seq (.rep jsSpace 0 none)
        (.seq (.opt (fun c => c == '#'))
          (.seq (.rep jsSpace 0 none)
            (.seq (.rep jsDigit 3 none) .wb)))))

/-- `[A-Z]` (no `i` flag on the id-like pattern). -/
def upperChar (c : Char) : Bool := decide ('A' ≤ c ∧ c ≤ 'Z')

/-- `/\b[A-Z]{2,5}\d{3,6}\b/g` -/
def idlikeRe : Re :=
  .seq .wb (.seq (.rep upperChar 2 (some 5)) (.seq (.rep jsDigit 3 (some 6)) .wb))

/-- `maskText(text)`: the four global replacements applied in source order;
the falsy guard `if (!text) return ''` maps the empty string to itself. -/
def maskText (text : String) : String :=
  if text = "" then ""
  else
    replAll idlikeRe "[redacted-id]"
      (replAll badgeRe "[redacted-id]"
        (replAll phoneRe "[redacted-phone]"
          (replAll emailRe "[redacted-email]" text)))

/-! ### General lemmas about the matcher -/

theorem munch_le_length (p : Char → Bool) : ∀ l : List Char, munch p l ≤ l.length := by
  intro l
  induction l with
  | nil => exact Nat.le_refl 0
  | cons c r ih =>
    simp only [munch, List.length_cons]
    split
    · omega
    · omega

theorem munch_all (p : Char → Bool) :
    ∀ l : List Char, (∀ c ∈ l, p c = true) → munch p l = l.length := by
  intro l
  induction l with
  | nil => intro _; rfl
  | cons c r ih =>
    intro h
    simp only [munch, List.length_cons, h c (List.mem_cons_self c r), if_true]
    rw [ih (fun d hd => h d (List.mem_cons_of_mem c hd))]

theorem mem_descList {j lo k : Nat} (h : k ∈ descList j lo) : lo ≤ k ∧ k ≤ j := by
  unfold descList at h
  rw [List.mem_map] at h
  obtain ⟨i, hi, hk⟩ := h
  rw [List.mem_range] at hi
  omega

theorem descList_cons {j lo : Nat} (hlo : lo ≤ j) (hj : 1 ≤ j) :
    descList j lo = j :: descList (j - 1) lo := by
  unfold descList
  have h1 : j + 1 - lo = (j - lo) + 1 := by omega
  have h2 : j - 1 + 1 - lo = j - lo := by omega
  rw [h1, h2, List.range_succ_eq_map]
  simp only [List.map_cons, Nat.sub_zero, List.map_map]
  congr 1
  apply List.map_congr_left
  intro i _
  simp only [Function.comp_apply]
  omega

theorem cands_suffix (re : Re) :
    ∀ (prev : Option Char) (l : List Char) (pr : Option Char × List Char),
      pr ∈ re.cands prev l → pr.2 <:+ l := by
  induction re with
  | cls p =>
    intro prev l pr hm
    cases l with
    | nil => simp [Re.cands] at hm
    | cons c r =>
      simp only [Re.cands] at hm
      by_cases hc : p c = true
      · simp only [hc, if_true, List.mem_singleton] at hm
        subst hm
        exact List.suffix_cons c r
      · simp [hc] at hm
  | seq a b iha ihb =>
    intro prev l pr hm
    simp only [Re.cands, List.mem_flatMap] at hm
    obtain ⟨q, hq, hb⟩ := hm
    exact (ihb q.1 q.2 pr hb).trans (iha prev l q hq)
  | alt a b iha ihb =>
    intro prev l pr hm
    simp only [Re.cands, List.mem_append] at hm
    rcases hm with h | h
    · exact iha _ _ _ h
    · exact ihb _ _ _ h
  | opt p =>
    intro prev l pr hm
    cases l with
    | nil =>
      simp only [Re.cands, List.mem_singleton] at hm
      subst hm
      exact List.suffix_refl _
    | cons c r =>
      simp only [Re.cands] at hm
      by_cases hc : p c = true
      · simp [hc] at hm
        rcases hm with h | h <;>
          simp [h, List.suffix_cons, List.suffix_refl]
      · simp [hc] at hm
        simp [hm, List.suffix_refl]
  | rep p lo hi =>
    intro prev l pr hm
    simp only [Re.cands, List.mem_map] at hm
    obtain ⟨k, _, heq⟩ := hm
    rw [← heq]
    exact List.drop_suffix k l
  | wb =>
    intro prev l pr hm
    simp only [Re.cands] at hm
    split at hm
    · rw [List.mem_singleton] at hm
      subst hm
      exact List.suffix_refl _
    · simp at hm

/-- Regex fragments every match of which must consume at least one character
satisfying `bad`. -/
inductive MustHit (bad : Char → Bool) : Re → Prop
  | cls {p : Char → Bool} (h : ∀ c, p c = true → bad c = true) : MustHit bad (.cls p)
  | seqL {a b : Re} (ha : MustHit bad a) : MustHit bad (.seq a b)
  | seqR {a b : Re} (hb : MustHit bad b) : MustHit bad (.seq a b)
  | alt {a b : Re} (ha : MustHit bad a) (hb : MustHit bad b) : MustHit bad (.alt a b)
  | rep {p : Char → Bool} {lo : Nat} {hi : Option Nat}
      (h : ∀ c, p c = true → bad c = true) (hlo : 1 ≤ lo) : MustHit bad (.rep p lo hi)

theorem mustHit_cands_nil {bad : Char → Bool} {re : Re} (hm : MustHit bad re) :
    ∀ (prev : Option Char) (l : List Char),
      (∀ c ∈ l, bad c = false) → re.cands prev l = [] := by
  induction hm with
  | @cls p h =>
    intro prev l hl
    cases l with
    | nil => rfl
    | cons c r =>
      have hpc : p c = false := by
        cases hp : p c
        · rfl
        · have := h c hp
          rw [hl c (List.mem_cons_self c r)] at this
          exact absurd this (by simp)
      simp [Re.cands, hpc]
  | @seqL a b _ iha =>
    intro prev l hl
    simp [Re.cands, iha prev l hl]
  | @seqR a b _ ihb =>
    intro prev l hl
    simp only [Re.cands]
    apply List.eq_nil_iff_forall_not_mem.mpr
    intro x hx
    rw [List.mem_flatMap] at hx
    obtain ⟨q, hq, hxq⟩ := hx
    rw [ihb q.1 q.2 (fun c hc => hl c ((cands_suffix a prev l q hq).subset hc))] at hxq
    exact absurd hxq (List.not_mem_nil x)
  | @alt a b _ _ iha ihb =>
    intro prev l hl
    simp [Re.cands, iha prev l hl, ihb prev l hl]
  | @rep p lo hi h hlo =>
    intro prev l hl
    simp only [Re.cands]
    have hmunch : munch p l = 0 := by
      cases l with
      | nil => rfl
      | cons c r =>
        have hpc : p c = false := by
          cases hp : p c
          · rfl
          · have := h c hp
            rw [hl c (List.mem_cons_self c r)] at this
            exact absurd this (by simp)
        simp [munch, hpc]
    rw [hmunch]
    have hj : (match hi with | some h' => min 0 h' | none => 0) = 0 := by
      cases hi <;> simp
    rw [hj]
    have : descList 0 lo = [] := by
      unfold descList
      have : 0 + 1 - lo = 0 := by omega
      rw [this]
      rfl
    rw [this]
    rfl

/-- A lower bound on how many characters a fragment consumes. -/
def Re.minLen : Re → Nat
  | .cls _ => 1
  | .seq a b => a.minLen + b.minLen
  | .alt a b => min a.minLen b.minLen
  | .opt _ => 0
  | .rep _ lo _ => lo
  | .wb => 0

theorem cands_minLen (re : Re) :
    ∀ (prev : Option Char) (l : List Char) (pr : Option Char × List Char),
      pr ∈ re.cands prev l → re.minLen + pr.2.length ≤ l.length := by
  induction re with
  | cls p =>
    intro prev l pr hm
    cases l with
    | nil => simp [Re.cands] at hm
    | cons c r =>
      simp only [Re.cands] at hm
      by_cases hc : p c = true
      · simp only [hc, if_true, List.mem_singleton] at hm
        subst hm
        simp [Re.minLen, Nat.add_comm]
      · simp [hc] at hm
  | seq a b iha ihb =>
    intro prev l pr hm
    simp only [Re.cands, List.mem_flatMap] at hm
    obtain ⟨q, hq, hb⟩ := hm
    have h1 := iha prev l q hq
    have h2 := ihb q.1 q.2 pr hb
    simp only [Re.minLen]
    omega
  | alt a b iha ihb =>
    intro prev l pr hm
    simp only [Re.cands, List.mem_append] at hm
    simp only [Re.minLen]
    rcases hm with h | h
    · have := iha _ _ _ h; omega
    · have := ihb _ _ _ h; omega
  | opt p =>
    intro prev l pr hm
    have hs := cands_suffix (.opt p) prev l pr hm
    have := hs.length_le
    simp only [Re.minLen]
    omega
  | rep p lo hi =>
    intro prev l pr hm
    cases hi with
    | none =>
      simp only [Re.cands, List.mem_map] at hm
      obtain ⟨k, hk, heq⟩ := hm
      obtain ⟨hlok, hkj⟩ := mem_descList hk
      have hml := munch_le_length p l
      rw [← heq]
      simp only [Re.minLen, List.length_drop]
      omega
    | some hb =>
      simp only [Re.cands, List.mem_map] at hm
      obtain ⟨k, hk, heq⟩ := hm
      obtain ⟨hlok, hkj⟩ := mem_descList hk
      have hml := munch_le_length p l
      have hmin := Nat.min_le_left (munch p l) hb
      rw [← heq]
      simp only [Re.minLen, List.length_drop]
      omega
  | wb =>
    intro prev l pr hm
    simp only [Re.cands] at hm
    split at hm
    · rw [List.mem_singleton] at hm
      subst hm
      simp [Re.minLen]
    · simp at hm

/-! ### Identity of the replacement scan when no position matches -/

theorem scanReplace_id (re : Re) (repl : List Char) :
    ∀ (l : List Char) (fuel : Nat) (prev : Option Char),
      (∀ (pr : Option Char) (r : List Char), r <:+ l → re.cands pr r = []) →
      scanReplace re repl fuel prev l = l := by
  intro l
  induction l with
  | nil => intro fuel prev _; cases fuel <;> rfl
  | cons c rest ih =>
    intro fuel prev h
    cases fuel with
    | zero => rfl
    | succ f =>
      have hm : matchAt re prev (c :: rest) = none := by
        unfold matchAt
        rw [h prev (c :: rest) (List.suffix_refl _)]
        rfl
      simp only [scanReplace, hm]
      rw [ih f (some c) (fun pr r hr => h pr r (hr.trans (List.suffix_cons c rest)))]

theorem replAll_id (re : Re) (repl : String) (s : String)
    (h : ∀ (pr : Option Char) (r : List Char), r <:+ s.data → re.cands pr r = []) :
    replAll re repl s = s := by
  unfold replAll
  rw [scanReplace_id re repl.data s.data s.data.length none h]

theorem replAll_id_of_mustHit {bad : Char → Bool} {re : Re} (hm : MustHit bad re)
    (repl : String) (s : String) (hs : ∀ c ∈ s.data, bad c = false) :
    replAll re repl s = s :=
  replAll_id re repl s (fun pr r hr =>
    mustHit_cands_nil hm pr r (fun c hc => hs c (hr.subset hc)))

theorem replAll_id_of_minLen (re : Re) (repl : String) (s : String)
    (hlen : s.data.length < re.minLen) :
    replAll re repl s = s :=
  replAll_id re repl s (fun pr r hr => by
    apply List.eq_nil_iff_forall_not_mem.mpr
    intro x hx
    have h1 := cands_minLen re pr r x hx
    have h2 := hr.length_le
    omega)

/-! ### Character-class facts -/

theorem upper_not_digit (c : Char) (hc : upperChar c = true) : jsDigit c = false := by
  rw [upperChar, decide_eq_true_eq] at hc
  rw [jsDigit]
  apply decide_eq_false
  intro hdig
  exact absurd (le_trans hc.1 hdig.2) (by decide)

theorem digit_isWordChar (c : Char) (hc : jsDigit c = true) : isWordChar c = true := by
  rw [jsDigit, decide_eq_true_eq] at hc
  rw [isWordChar, decide_eq_true_eq]
  exact Or.inr (Or.inr (Or.inl hc))

theorem digit_phoneMid (c : Char) (hc : jsDigit c = true) : phoneMid c = true := by
  simp [phoneMid, hc]

theorem digit_beq_false (c d : Char) (hc : jsDigit c = true) (hd : jsDigit d = false) :
    (c == d) = false := by
  rw [beq_eq_false_iff_ne]
  intro h
  rw [h, hd] at hc
  exact absurd hc (by simp)

theorem ws_not_digit (c : Char) (hc : c.isWhitespace = true) : jsDigit c = false := by
  simp only [Char.isWhitespace, Bool.or_eq_true, decide_eq_true_eq] at hc
  rcases hc with ((h | h) | h) | h <;> (subst h; decide)

theorem ws_not_at (c : Char) (hc : c.isWhitespace = true) : (c == '@') = false := by
  simp only [Char.isWhitespace, Bool.or_eq_true, decide_eq_true_eq] at hc
  rcases hc with ((h | h) | h) | h <;> (subst h; decide)

theorem ci_nondigit {lower upper : Char} (hl : jsDigit lower = false)
    (hu : jsDigit upper = false) :
    ∀ c, (c == lower || c == upper) = true → (!(jsDigit c)) = true := by
  intro c hc
  rw [Bool.or_eq_true] at hc
  rcases hc with h | h
  · rw [eq_of_beq h, hl]; rfl
  · rw [eq_of_beq h, hu]; rfl

theorem upper_nondigit : ∀ c, upperChar c = true → (!(jsDigit c)) = true := by
  intro c hc
  rw [upper_not_digit c hc]
  rfl

/-! ### `MustHit` instances for the four patterns -/

theorem mustHit_email : MustHit (fun c => c == '@') emailRe :=
  .seqR (.seqL (.cls (fun _ hc => hc)))

theorem mustHit_phone_digit : MustHit jsDigit phoneRe :=
  .seqR (.seqR (.seqL (.cls (fun _ hc => hc))))

theorem mustHit_badge_digit : MustHit jsDigit badgeRe :=
  .seqR (.seqR (.seqR (.seqR (.seqR (.seqL (.rep (fun _ hc => hc) (by decide)))))))

theorem mustHit_idlike_digit : MustHit jsDigit idlikeRe :=
  .seqR (.seqR (.seqL (.rep (fun _ hc => hc) (by decide))))

theorem mustHit_badge_nondigit : MustHit (fun c => !(jsDigit c)) badgeRe :=
  .seqR (.seqL (.alt
    (.seqL (.cls (ci_nondigit (by decide) (by decide))))
    (.alt (.seqL (.cls (ci_nondigit (by decide) (by decide))))
      (.alt (.seqL (.cls (ci_nondigit (by decide) (by decide))))
        (.seqL (.cls (ci_nondigit (by decide) (by decide))))))))

theorem mustHit_idlike_nondigit : MustHit (fun c => !(jsDigit c)) idlikeRe :=
  .seqR (.seqL (.rep upper_nondigit (by decide)))

/-! ### C9: fixed point on placeholder-only text -/

/-- C9: every string consisting only of the placeholder tokens
`[redacted-email]`, `[redacted-phone]` and `[redacted-id]` and whitespace
separators is a fixed point of `maskText`. -/
theorem mask_fixed_on_placeholders (parts : List String)
    (hp : ∀ p ∈ parts, p = "[redacted-email]" ∨ p = "[redacted-phone]" ∨
      p = "[redacted-id]" ∨ ∀ c ∈ p.data, c.isWhitespace = true) :
    maskText (String.join parts) = String.join parts := by
  have hchars : ∀ c ∈ (String.join parts).data, jsDigit c = false ∧ (c == '@') = false := by
    intro c hc
    rw [data_join, List.mem_flatten] at hc
    obtain ⟨cs, hcs, hcmem⟩ := hc
    rw [List.mem_map] at hcs
    obtain ⟨p, hpmem, hpeq⟩ := hcs
    rcases hp p hpmem with h | h | h | h
    · subst h
      rw [← hpeq] at hcmem
      exact (by decide :
        ∀ x ∈ "[redacted-email]".data, jsDigit x = false ∧ (x == '@') = false) c hcmem
    · subst h
      rw [← hpeq] at hcmem
      exact (by decide :
        ∀ x ∈ "[redacted-phone]".data, jsDigit x = false ∧ (x == '@') = false) c hcmem
    · subst h
      rw [← hpeq] at hcmem
      exact (by decide :
        ∀ x ∈ "[redacted-id]".data, jsDigit x = false ∧ (x == '@') = false) c hcmem
    · have hw := h c (by rw [hpeq]; exact hcmem)
      exact ⟨ws_not_digit c hw, ws_not_at c hw⟩
  have h1 : replAll emailRe "[redacted-email]" (String.join parts) = String.join parts :=
    replAll_id_of_mustHit mustHit_email _ _ (fun c hc => (hchars c hc).2)
  have h2 : replAll phoneRe "[redacted-phone]" (String.join parts) = String.join parts :=
    replAll_id_of_mustHit mustHit_phone_digit _ _ (fun c hc => (hchars c hc).1)
  have h3 : replAll badgeRe "[redacted-id]" (String.join parts) = String.join parts :=
    replAll_id_of_mustHit mustHit_badge_digit _ _ (fun c hc => (hchars c hc).1)
  have h4 : replAll idlikeRe "[redacted-id]" (String.join parts) = String.join parts :=
    replAll_id_of_mustHit mustHit_idlike_digit _ _ (fun c hc => (hchars c hc).1)
  unfold maskText
  by_cases hse : String.join parts = ""
  · rw [if_pos hse, hse]
  · rw [if_neg hse, h1, h2, h3, h4]

/-- Witness for C9 at a concrete placeholder list. -/
theorem mask_fixed_on_placeholders_witness :
    maskText (String.join ["[redacted-email]", " ", "[redacted-phone]"]) =
      String.join ["[redacted-email]", " ", "[redacted-phone]"] :=
  mask_fixed_on_placeholders ["[redacted-email]", " ", "[redacted-phone]"] (by decide)

/-! ### C8: the concrete masking scenario -/

/-- C8: `maskText` on the exact input
`"Contact: jane.doe@example.org re: case ABC1234"` yields exactly
`"Contact: [redacted-email] re: case [redacted-id]"`. -/
theorem mask_concrete_scenario :
    maskText "Contact: jane.doe@example.org re: case ABC1234" =
      "Contact: [redacted-email] re: case [redacted-id]" := by decide

/-! ### C7: the phone pattern -/

theorem cands_seq (a b : Re) (prev : Option Char) (l : List Char) :
    (Re.seq a b).cands prev l = (a.cands prev l).flatMap (fun pr => b.cands pr.1 pr.2) := rfl

theorem scanReplace_nil (re : Re) (repl : List Char) :
    ∀ (fuel : Nat) (prev : Option Char), scanReplace re repl fuel prev [] = [] := by
  intro fuel prev
  cases fuel <;> rfl

theorem drop_pred : ∀ (l : List Char), l ≠ [] → ∃ c, l.drop (l.length - 1) = [c] ∧ c ∈ l := by
  intro l
  induction l with
  | nil => intro h; exact absurd rfl h
  | cons a t ih =>
    intro _
    cases t with
    | nil => exact ⟨a, rfl, List.mem_singleton.mpr rfl⟩
    | cons b t' =>
      obtain ⟨c, hc, hmem⟩ := ih (by simp)
      refine ⟨c, ?_, List.mem_cons_of_mem a hmem⟩
      have harith : (a :: b :: t').length - 1 = ((b :: t').length - 1) + 1 := by
        simp only [List.length_cons]
        omega
      rw [harith, List.drop_succ_cons]
      exact hc

/-- On a word-bounded all-digit token of nine or more characters, the phone
pattern's preferred match at the start consumes the whole token. -/
theorem phone_matchAt (c1 : Char) (rest : List Char)
    (hd : ∀ c ∈ c1 :: rest, jsDigit c = true) (h9 : 9 ≤ (c1 :: rest).length) :
    matchAt phoneRe none (c1 :: rest) = some [] := by
  have hc1d : jsDigit c1 = true := hd c1 (List.mem_cons_self c1 rest)
  have hc1w : isWordChar c1 = true := digit_isWordChar c1 hc1d
  have hc1plus : (c1 == '+') = false := digit_beq_false c1 '+' hc1d (by decide)
  have hrestd : ∀ c ∈ rest, jsDigit c = true := fun c hc => hd c (List.mem_cons_of_mem c1 hc)
  have hmunch : munch phoneMid rest = rest.length :=
    munch_all phoneMid rest (fun c hc => digit_phoneMid c (hrestd c hc))
  have h8 : 8 ≤ rest.length := by
    simp only [List.length_cons] at h9
    omega
  have hrne : rest ≠ [] := by
    intro h
    rw [h] at h8
    simp at h8
  obtain ⟨clast, hdrop1, hclmem⟩ := drop_pred rest hrne
  have hcld : jsDigit clast = true := hrestd clast hclmem
  have hclw : isWordChar clast = true := digit_isWordChar clast hcld
  have harith : rest.length - 1 - 1 = rest.length - 2 := by omega
  have hdesc : descList rest.length 7 =
      rest.length :: (rest.length - 1) :: descList (rest.length - 2) 7 := by
    rw [descList_cons (by omega) (by omega), descList_cons (by omega) (by omega), harith]
  have e1 : Re.cands .wb none (c1 :: rest) = [(none, c1 :: rest)] := by
    simp [Re.cands, boundary, optWord, hc1w]
  have e2 : Re.cands (.opt (fun c => c == '+')) none (c1 :: rest) = [(none, c1 :: rest)] := by
    simp [Re.cands, hc1plus]
  have e3 : Re.cands (.cls jsDigit) none (c1 :: rest) = [(some c1, rest)] := by
    simp [Re.cands, hc1d]
  have e4 : Re.cands (.rep phoneMid 7 none) (some c1) rest =
      (prevAfter (some c1) rest rest.length, ([] : List Char)) ::
      (prevAfter (some c1) rest (rest.length - 1), [clast]) ::
      (descList (rest.length - 2) 7).map
        (fun k => (prevAfter (some c1) rest k, rest.drop k)) := by
    simp only [Re.cands, hmunch, hdesc, List.map_cons, List.drop_length, hdrop1]
  have e5 : ∀ pr : Option Char,
      Re.cands (.seq (.cls jsDigit) .wb) pr ([] : List Char) = [] := by
    intro pr
    simp [Re.cands]
  have e6 : ∀ pr : Option Char,
      Re.cands (.seq (.cls jsDigit) .wb) pr [clast] = [(some clast, [])] := by
    intro pr
    simp [Re.cands, hcld, boundary, optWord, hclw]
  unfold matchAt phoneRe
  rw [cands_seq, e1]
  simp only [List.flatMap_cons, List.flatMap_nil, List.append_nil]
  rw [cands_seq, e2]
  simp only [List.flatMap_cons, List.flatMap_nil, List.append_nil]
  rw [cands_seq, e3]
  simp only [List.flatMap_cons, List.flatMap_nil, List.append_nil]
  rw [cands_seq, e4]
  simp only [List.flatMap_cons, e5, e6, List.nil_append, List.singleton_append,
    List.head?_cons]
  rfl

/-- On an all-digit string of nine or more characters, the phone replacement
pass replaces the whole string. -/
theorem phone_replAll_digits (s : String) (hd : ∀ c ∈ s.data, jsDigit c = true)
    (h9 : 9 ≤ s.data.length) :
    replAll phoneRe "[redacted-phone]" s = "[redacted-phone]" := by
  unfold replAll
  rcases hsd : s.data with _ | ⟨c1, rest⟩
  · rw [hsd] at h9
    simp at h9
  · rw [hsd] at hd h9
    have hm := phone_matchAt c1 rest hd h9
    rw [List.length_cons]
    simp only [scanReplace, hm, List.length_nil, List.length_cons, Nat.zero_lt_succ, if_true,
      scanReplace_nil, List.append_nil]

/-- C7 counterexample (closed): a word-bounded token of exactly eight plain
digits is returned unchanged (not masked), while a seven-digit hyphenated
token IS replaced by the phone placeholder. -/
theorem phone_mask_counterexample :
    maskText "12345678" = "12345678" ∧
    maskText "1-2-3-4-5-6-7" = "[redacted-phone]" := by
  constructor <;> decide

/-- C7 (amended): the phone pattern is `\b\+?\d[\d\s\-()]{7,}\d\b` — it
needs at least nine characters (hence at least nine digits when the token is
all digits, and as few as two digits with interspersed separators). A bare
all-digit string is masked to `[redacted-phone]` iff it has at least nine
digits; with eight or fewer digits it passes through `maskText` unchanged. -/
theorem phone_mask_amended (s : String) (hd : ∀ c ∈ s.data, jsDigit c = true) :
    (9 ≤ s.data.length → maskText s = "[redacted-phone]") ∧
    (s.data.length ≤ 8 → maskText s = s) := by
  have hemail : replAll emailRe "[redacted-email]" s = s :=
    replAll_id_of_mustHit mustHit_email _ s
      (fun c hc => digit_beq_false c '@' (hd c hc) (by decide))
  constructor
  · intro h9
    have hne : s ≠ "" := by
      intro h0
      rw [h0] at h9
      simp at h9
    unfold maskText
    rw [if_neg hne, hemail, phone_replAll_digits s hd h9,
      replAll_id_of_mustHit mustHit_badge_digit _ _
        (by decide : ∀ c ∈ ("[redacted-phone]" : String).data, jsDigit c = false),
      replAll_id_of_mustHit mustHit_idlike_digit _ _
        (by decide : ∀ c ∈ ("[redacted-phone]" : String).data, jsDigit c = false)]
  · intro h8
    by_cases hse : s = ""
    · rw [hse]
      rfl
    · unfold maskText
      rw [if_neg hse, hemail,
        replAll_id_of_minLen phoneRe _ s (by
          have hmin : phoneRe.minLen = 9 := rfl
          omega),
        replAll_id_of_mustHit mustHit_badge_nondigit _ s (fun c hc => by rw [hd c hc]; rfl),
        replAll_id_of_mustHit mustHit_idlike_nondigit _ s (fun c hc => by rw [hd c hc]; rfl)]

/-- Witness for the amended C7 at nine digits (both hypotheses concrete). -/
theorem phone_mask_amended_witness :
    (9 ≤ ("123456789" : String).data.length → maskText "123456789" = "[redacted-phone]") ∧
    (("123456789" : String).data.length ≤ 8 → maskText "123456789" = "123456789") :=
  phone_mask_amended "123456789" (by decide)

/-! ### Structural redaction: data model (field sets taken from the record
constructors in the source: complaints, concerns, notes and responses) -/

/-- A free-form note: `{ text, urls, date }`. -/
structure Note where
  date : String
  text : String
  urls : List String
deriving Repr, DecidableEq

/-- A concern response: `{ id, date, decisionMaker, text, urls, attachments }`. -/
structure Response where
  id : String
  date : String
  decisionMaker : String
  text : String
  urls : List String
  attachments : List String
deriving Repr, DecidableEq

structure Concern where
  id : String
  summary : String
  details : String
  decisionMaker : String
  responseDate : String
  response : String
  evidence : List String
  notes : List Note
  responses : List Response
  attachments : List String
deriving Repr, DecidableEq

/-- Per-concern redaction override flags. The source only ever compares an
override value with the literal `false` (`cov[k] !== false`); a field here is
`false` exactly when the JavaScript value is `false`, and `true` for any
other value including absent, so the defaults are `true` (= redact). -/
structure ConcernOverrides where
  summary : Bool := true
  details : Bool := true
  decisionMaker : Bool := true
  response : Bool := true
  notesText : Bool := true
  notesUrls : Bool := true
  responsesDecision : Bool := true
  responsesText : Bool := true
  responsesUrls : Bool := true
deriving Repr, DecidableEq

/-- The record-level override map (`complaint.redactOverrides`), same
`!== false` convention for the nine root keys; `concerns` is the nested
per-concern map keyed by concern id, and `safeAttachments` the attachment
allow-list. -/
structure RedactOverrides where
  title : Bool := true
  institution : Bool := true
  contactPerson : Bool := true
  complaintContent : Bool := true
  institutionAddress : Bool := true
  institutionEmail : Bool := true
  status : Bool := true
  passwordHint : Bool := true
  agreedTerms : Bool := true
  concerns : List (String × ConcernOverrides) := []
  safeAttachments : List String := []
deriving Repr, DecidableEq

structure Complaint where
  id : String
  title : String
  dateFiled : String
  institution : String
  contactPerson : String
  complaintContent : String
  linkedSAR : String
  concerns : List Concern
  status : String
  escalationPath : List String
  isPasswordProtected : Bool
  passwordHint : String
  institutionAddress : String
  institutionEmail : String
  expectedResponseFrequency : String
  lastResponseDate : String
  agreedTerms : String
  breachFlag : Bool
  attachments : List String
  history : List HistoryEntry
  redactOverrides : RedactOverrides
deriving Repr, DecidableEq

/-- `(overrides.concerns||{})[ck] || {}`. -/
def concernOv (ov : RedactOverrides) (ck : String) : ConcernOverrides :=
  (ov.concerns.lookup ck).getD {}

/-- One key of `redactFields`: `if (obj[k]) obj[k] = maskText(obj[k])`,
guarded by the filtered key list (`overrides[k] !== false`, `apply = true`). -/
def maskField (apply : Bool) (v : String) : String :=
  if apply then (if v = "" then v else maskText v) else v

/-- The per-concern body of the `forEach` loop in `redactComplaintDeep`. -/
def redactConcern (cov : ConcernOverrides) (safe : List String) (c : Concern) : Concern :=
  { c with
    summary := maskField cov.summary c.summary
    details := maskField cov.details c.details
    decisionMaker := maskField cov.decisionMaker c.decisionMaker
    response := maskField cov.response c.response
    evidence := c.evidence.map maskText
    notes := c.notes.map (fun n =>
      { n with
        text := if cov.notesText = false then n.text else maskText n.text
        urls := n.urls.map (fun u => if cov.notesUrls = false then u else maskText u) })
    responses := c.responses.map (fun r =>
      { r with
        decisionMaker := if cov.responsesDecision = false then r.decisionMaker
          else maskText r.decisionMaker
        text := if cov.responsesText = false then r.text else maskText r.text
        urls := r.urls.map (fun u => if cov.responsesUrls = false then u else maskText u) })
    attachments := c.attachments.filter (fun key => safe.contains key) }

/-- `JSON.parse(JSON.stringify(complaint))`: on this data model (no
`undefined`, no functions, no cycles) the JSON round trip reproduces the same
value, in a freshly allocated object graph disjoint from the input's. -/
def jsonRoundtrip (c : Complaint) : Complaint := c

/-- `redactComplaintDeep(complaint)`. -/
def redactComplaintDeep (complaint : Complaint) : Complaint :=
  let redacted := jsonRoundtrip complaint
  let overrides := complaint.redactOverrides
  { redacted with
    title := maskField overrides.title redacted.title
    institution := maskField overrides.institution redacted.institution
    contactPerson := maskField overrides.contactPerson redacted.contactPerson
    complaintContent := maskField overrides.complaintContent redacted.complaintContent
    institutionAddress := maskField overrides.institutionAddress redacted.institutionAddress
    institutionEmail := maskField overrides.institutionEmail redacted.institutionEmail
    status := maskField overrides.status redacted.status
    passwordHint := maskField overrides.passwordHint redacted.passwordHint
    agreedTerms := maskField overrides.agreedTerms redacted.agreedTerms
    concerns := redacted.concerns.map (fun c =>
      redactConcern (concernOv overrides c.id) overrides.safeAttachments c) }

/-! ### C6: non-mutation, as explicit two-graph state passing -/

/-- The two object graphs live during a `redactComplaintDeep(complaint)`
call: the caller's record and the copy allocated by the JSON round trip.
Every assignment in the source body targets `redacted` or an object reached
from it, so each statement is a transformer that leaves `input` unchanged. -/
structure RedactHeap where
  input : Complaint
  copy : Complaint
deriving Repr, DecidableEq

/-- `const redacted = JSON.parse(JSON.stringify(complaint))`. -/
def stAlloc (complaint : Complaint) : RedactHeap :=
  { input := complaint, copy := jsonRoundtrip complaint }

/-- `redactFields(redacted, rootKeys.filter(k => overrides[k] !== false))` —
reads the override map from the input record, writes the copy. -/
def stRootFields (h : RedactHeap) : RedactHeap :=
  { h with copy := { h.copy with
      title := maskField h.input.redactOverrides.title h.copy.title
      institution := maskField h.input.redactOverrides.institution h.copy.institution
      contactPerson := maskField h.input.redactOverrides.contactPerson h.copy.contactPerson
      complaintContent :=
        maskField h.input.redactOverrides.complaintContent h.copy.complaintContent
      institutionAddress :=
        maskField h.input.redactOverrides.institutionAddress h.copy.institutionAddress
      institutionEmail :=
        maskField h.input.redactOverrides.institutionEmail h.copy.institutionEmail
      status := maskField h.input.redactOverrides.status h.copy.status
      passwordHint := maskField h.input.redactOverrides.passwordHint h.copy.passwordHint
      agreedTerms := maskField h.input.redactOverrides.agreedTerms h.copy.agreedTerms } }

/-- The `(redacted.concerns||[]).forEach(c => { ... })` loop — reads the
override map from the input record, writes the copy's concerns. -/
def stConcerns (h : RedactHeap) : RedactHeap :=
  { h with copy := { h.copy with concerns := h.copy.concerns.map (fun c =>
      redactConcern (concernOv h.input.redactOverrides c.id)
        h.input.redactOverrides.safeAttachments c) } }

/-- The whole call, statement by statement. -/
def redactRun (complaint : Complaint) : RedactHeap :=
  stConcerns (stRootFields (stAlloc complaint))

/-- C6: redaction never mutates its input: after the call the caller's
record is byte-for-byte the original (all fields, including nested concerns,
notes, responses, evidence lists and attachments), and the value returned is
a fresh structure (the copy graph) equal to `redactComplaintDeep`. -/
theorem redact_no_mutation (complaint : Complaint) :
    (redactRun complaint).input = complaint ∧
    (redactRun complaint).copy = redactComplaintDeep complaint ∧
    (redactRun complaint).input.title = complaint.title ∧
    (redactRun complaint).input.complaintContent = complaint.complaintContent ∧
    (redactRun complaint).input.concerns = complaint.concerns ∧
    (redactRun complaint).input.history = complaint.history ∧
    (redactRun complaint).input.redactOverrides = complaint.redactOverrides :=
  ⟨rfl, rfl, rfl, rfl, rfl, rfl, rfl⟩

/-! ### C5: attachment default-deny -/

/-- C5: in `redactComplaintDeep`'s output each concern's attachment list is
exactly the input list filtered by membership in the `safeAttachments`
allow-list: with an empty safe-list every concern redacts to zero
attachments, and with a one-key safe-list naming a key the concern holds
once, exactly one attachment survives. -/
theorem redact_attachments_filter (complaint : Complaint) (c : Concern)
    (hc : c ∈ complaint.concerns) :
    (redactConcern (concernOv complaint.redactOverrides c.id)
        complaint.redactOverrides.safeAttachments c ∈
      (redactComplaintDeep complaint).concerns) ∧
    (redactConcern (concernOv complaint.redactOverrides c.id)
        complaint.redactOverrides.safeAttachments c).attachments =
      c.attachments.filter
        (fun key => complaint.redactOverrides.safeAttachments.contains key) ∧
    (complaint.redactOverrides.safeAttachments = [] →
      (redactConcern (concernOv complaint.redactOverrides c.id)
        complaint.redactOverrides.safeAttachments c).attachments = []) ∧
    (∀ k, complaint.redactOverrides.safeAttachments = [k] →
      c.attachments.count k = 1 →
      (redactConcern (concernOv complaint.redactOverrides c.id)
        complaint.redactOverrides.safeAttachments c).attachments.length = 1) := by
  refine ⟨?_, rfl, ?_, ?_⟩
  · exact List.mem_map_of_mem _ hc
  · intro h
    rw [h]
    simp [redactConcern]
  · intro k hk hcount
    rw [hk]
    simp only [redactConcern]
    rw [show (fun key => List.contains [k] key) = (fun key => key == k) from
      funext (fun key => by simp [beq_eq_decide])]
    rw [← List.countP_eq_length_filter]
    rw [List.count] at hcount
    exact hcount

/-- A concrete concern and record for the C5 witness. -/
def sampleConcern : Concern :=
  { id := "conc_001", summary := "No monthly update", details := "detail",
    decisionMaker := "PSD", responseDate := "", response := "", evidence := [],
    notes := [], responses := [], attachments := ["att_a", "att_b"] }

def sampleComplaint : Complaint :=
  { id := "cmp_001", title := "title", dateFiled := "2025-05-01",
    institution := "institution", contactPerson := "", complaintContent := "content",
    linkedSAR := "", concerns := [sampleConcern], status := "Filed",
    escalationPath := ["Filed"], isPasswordProtected := false, passwordHint := "",
    institutionAddress := "", institutionEmail := "", expectedResponseFrequency := "",
    lastResponseDate := "", agreedTerms := "", breachFlag := false, attachments := [],
    history := [], redactOverrides := { safeAttachments := ["att_a"] } }

/-- Witness for C5 at the concrete record. -/
theorem redact_attachments_filter_witness :
    (redactConcern (concernOv sampleComplaint.redactOverrides sampleConcern.id)
        sampleComplaint.redactOverrides.safeAttachments sampleConcern).attachments =
      sampleConcern.attachments.filter
        (fun key => sampleComplaint.redactOverrides.safeAttachments.contains key) :=
  (redact_attachments_filter sampleComplaint sampleConcern (by decide)).2.1

/-! ### C10: the frame of structural redaction -/

/-- C10: `redactComplaintDeep` masks only the nine allow-listed root fields,
the listed per-concern fields, evidence URLs and note/response texts and
URLs, and filters per-concern attachments; every other field of the deep
copy passes through unchanged — in particular the whole history (each
entry's event and date strings unmasked), the top-level id, dates, linked
SAR, escalation path, top-level attachments, the override map, concern ids
and response dates, and note/response metadata. -/
theorem redact_frame (complaint : Complaint) :
    (redactComplaintDeep complaint).id = complaint.id ∧
    (redactComplaintDeep complaint).dateFiled = complaint.dateFiled ∧
    (redactComplaintDeep complaint).linkedSAR = complaint.linkedSAR ∧
    (redactComplaintDeep complaint).escalationPath = complaint.escalationPath ∧
    (redactComplaintDeep complaint).isPasswordProtected = complaint.isPasswordProtected ∧
    (redactComplaintDeep complaint).expectedResponseFrequency =
      complaint.expectedResponseFrequency ∧
    (redactComplaintDeep complaint).lastResponseDate = complaint.lastResponseDate ∧
    (redactComplaintDeep complaint).breachFlag = complaint.breachFlag ∧
    (redactComplaintDeep complaint).attachments = complaint.attachments ∧
    (redactComplaintDeep complaint).redactOverrides = complaint.redactOverrides ∧
    (redactComplaintDeep complaint).history = complaint.history ∧
    (redactComplaintDeep complaint).history.map HistoryEntry.event =
      complaint.history.map HistoryEntry.event ∧
    (redactComplaintDeep complaint).history.map HistoryEntry.date =
      complaint.history.map HistoryEntry.date ∧
    (redactComplaintDeep complaint).concerns.map Concern.id =
      complaint.concerns.map Concern.id ∧
    (redactComplaintDeep complaint).concerns.map Concern.responseDate =
      complaint.concerns.map Concern.responseDate ∧
    (redactComplaintDeep complaint).concerns.map (fun c => c.notes.map Note.date) =
      complaint.concerns.map (fun c => c.notes.map Note.date) ∧
    (redactComplaintDeep complaint).concerns.map (fun c => c.responses.map Response.id) =
      complaint.concerns.map (fun c => c.responses.map Response.id) ∧
    (redactComplaintDeep complaint).concerns.map (fun c => c.responses.map Response.date) =
      complaint.concerns.map (fun c => c.responses.map Response.date) ∧
    (redactComplaintDeep complaint).concerns.map
        (fun c => c.responses.map Response.attachments) =
      complaint.concerns.map (fun c => c.responses.map Response.attachments) := by
  refine ⟨rfl, rfl, rfl, rfl, rfl, rfl, rfl, rfl, rfl, rfl, rfl, rfl, rfl,
    ?_, ?_, ?_, ?_, ?_, ?_⟩ <;>
    simp [redactComplaintDeep, jsonRoundtrip, redactConcern, List.map_map, Function.comp]

end Complaints
